import Mathlib

/-!
Shallow embedding of the two orchestration scripts of the repository:
`run_captioner_sweep.py` (hyperparameter sweeps of a captioning model) and
`run_cnn_cert.py` (spurious-unit ablation experiments on a CNN).

Python machine-level details are embedded as follows: `numpy.arange` is
modelled over exact rationals, Python `int()` as truncation toward zero,
strings as Lean `String` with list-of-character operations for `lower`,
`in`, `join` and `split`, and filesystem state as a map from paths
(component lists) to a file state (absent, regular file or directory).
-/

namespace NeuronDesc

/-! ## Generic helpers -/

/-- A path is a list of components, root first. -/
abbrev Path := List String

/-- `seqStarts a b` is true when `a` is an initial segment of `b`. -/
def seqStarts {α : Type} [DecidableEq α] : List α → List α → Bool
  | [], _ => true
  | _ :: _, [] => false
  | a :: as, b :: bs => a = b && seqStarts as bs

/-- `listEndsWith l suf` is true when `suf` is a final segment of `l`. -/
def listEndsWith {α : Type} [DecidableEq α] (l suf : List α) : Bool :=
  seqStarts suf.reverse l.reverse

/-- `hasExt name ext` is true when the file name `name` ends with `ext`. -/
def hasExt (name ext : String) : Bool :=
  listEndsWith name.data ext.data

/-- Embedding of `numpy.arange(start, stop, step)` element count:
`ceil((stop - start) / step)`, clamped at zero. -/
def arangeLen (start stop step : ℚ) : ℕ :=
  (⌈(stop - start) / step⌉).toNat

/-- Embedding of `numpy.arange(start, stop, step)` over exact rationals:
the values `start + i * step` for `i < arangeLen start stop step`. -/
def arange (start stop step : ℚ) : List ℚ :=
  (List.range (arangeLen start stop step)).map
    fun (i : ℕ) => start + (i : ℚ) * step

/-- Embedding of Python `int()` applied to a rational: truncation toward
zero. -/
def pyInt (q : ℚ) : ℤ :=
  if 0 ≤ q then ⌊q⌋ else ⌈q⌉

/-- Embedding of Python `str.lower` (per-character lowering). -/
def pyLower (s : List Char) : List Char :=
  s.map Char.toLower

/-- Embedding of Python `needle in hay` on strings, initial-match part:
true when `n` is an initial segment of the list. -/
def containsSub (n : List Char) : List Char → Bool
  | [] => seqStarts n []
  | c :: cs => seqStarts n (c :: cs) || containsSub n cs

/-- Embedding of Python `sep.join(parts)` for a one-character separator. -/
def pyJoin (sep : Char) : List (List Char) → List Char
  | [] => []
  | [x] => x
  | x :: y :: xs => x ++ sep :: pyJoin sep (y :: xs)

/-- Embedding of Python `s.split(sep)` for a one-character separator:
splits at every occurrence; the empty string yields `[[]]`. -/
def pySplit (sep : Char) : List Char → List (List Char)
  | [] => [[]]
  | c :: cs =>
    match pySplit sep cs with
    | [] => []
    | w :: ws => if c = sep then [] :: w :: ws else (c :: w) :: ws

/-- Embedding of Python `x or default` for an optional string argument:
`None` and the empty string are falsy. -/
def pyOrStr (x : Option String) (d : String) : String :=
  match x with
  | none => d
  | some s => if s = "" then d else s

/-! ## Device selection (run_captioner_sweep.py line 143, run_cnn_cert.py
line 151): `device = args.device or 'cuda' if cuda.is_available() else
'cpu'`, which Python parses as
`(args.device or 'cuda') if cuda.is_available() else 'cpu'`. -/

def deviceOf (argsDevice : Option String) (cudaAvailable : Bool) : String :=
  if cudaAvailable then pyOrStr argsDevice "cuda" else "cpu"

end NeuronDesc

namespace NeuronDesc

/-! ## Filesystem model and results-directory setup -/

/-- State of one path on disk. -/
inductive FileState
  | absent
  | file
  | dir
deriving DecidableEq

/-- A filesystem maps each path to its state. -/
def FS := Path → FileState

/-- Embedding of `shutil.rmtree(root)`: every path at or under `root`
becomes absent. -/
def rmtree (root : Path) (fs : FS) : FS :=
  fun p => if seqStarts root p then FileState.absent else fs p

/-- Embedding of `root.mkdir(exist_ok=True, parents=True)`: `root` and each
of its ancestors is created as a directory when absent; nothing else
changes. -/
def mkdirParents (root : Path) (fs : FS) : FS :=
  fun p =>
    if seqStarts p root ∧ fs p = FileState.absent then FileState.dir else fs p

/-- Embedding of `path.exists()`. -/
def existsPath (fs : FS) (p : Path) : Bool :=
  decide (fs p ≠ FileState.absent)

/-- Embedding of the results-directory setup shared by both scripts
(run_captioner_sweep.py lines 148-150, run_cnn_cert.py lines 160-162):

    if args.clear_results_dir and results_dir.exists():
        shutil.rmtree(results_dir)
    results_dir.mkdir(exist_ok=True, parents=True)
-/
def setupResultsDir (clear : Bool) (root : Path) (fs : FS) : FS :=
  mkdirParents root (if clear && existsPath fs root then rmtree root fs else fs)

end NeuronDesc

namespace NeuronDesc

/-! ## Cache decisions (claim C1) -/

/-- What a cached-artifact block does on one run. -/
inductive CacheAction
  | load
  | computeAndWrite
  | skip
deriving DecidableEq

/-- The decision shared by the splits, CNN-weights and captions caches:
load when the file exists, otherwise compute and write
(run_captioner_sweep.py lines 168-176, run_cnn_cert.py lines 199-210,
217-233, 252-266). -/
def existsCacheAction (fileExists : Bool) : CacheAction :=
  if fileExists then CacheAction.load else CacheAction.computeAndWrite

/-- Language-model cache (run_captioner_sweep.py lines 178-187): load when
`lm.pth` exists; otherwise train and save only when a mutual-information
sweep was requested; otherwise leave the lm unset. -/
def lmAction (fileExists : Bool) (sweeps : List String) : CacheAction :=
  if fileExists then CacheAction.load
  else if sweeps.contains "greedy-mi" || sweeps.contains "beam-mi" then
    CacheAction.computeAndWrite
  else CacheAction.skip

/-- Captioner cache (run_captioner_sweep.py lines 189-210): load only when
both `captioner.pth` and `splits.pth` are regular files; otherwise train
and save. -/
def captionerAction (captionerIsFile splitsIsFile : Bool) : CacheAction :=
  if captionerIsFile && splitsIsFile then CacheAction.load
  else CacheAction.computeAndWrite

/-- Per-unit scores cache (run_cnn_cert.py lines 281-299): the whole block
runs only when a sort condition was requested; then load when the file
exists, else compute and save. -/
def scoresAction (conditions : List String) (fileExists : Bool) :
    CacheAction :=
  if conditions.contains "sort-spurious" || conditions.contains "sort-all"
  then existsCacheAction fileExists
  else CacheAction.skip

/-- Candidate-units file (run_cnn_cert.py lines 273-276): always written,
never reloaded. -/
def candidatesAction : CacheAction := CacheAction.computeAndWrite

/-- Captions cache decision (run_cnn_cert.py lines 252-266). -/
def captionsAction (fileExists : Bool) : CacheAction :=
  existsCacheAction fileExists

/-! Cache file names as built in the scripts. -/

def sweepSplitsFileName : String := "splits.pth"

def lmFileName : String := "lm.pth"

def captionerFileName : String := "captioner.pth"

def certSplitsFileName : String := "splits.pth"

/-- `f'{args.cnn}-{version}.pth'` (run_cnn_cert.py line 217). -/
def cnnFileName (cnn version : String) : String :=
  cnn ++ "-" ++ version ++ ".pth"

/-- `f'{args.cnn}-{version}-captions.txt'` (run_cnn_cert.py line 252). -/
def captionsFileName (cnn version : String) : String :=
  cnn ++ "-" ++ version ++ "-captions.txt"

/-- `f'{args.cnn}-{version}-units.txt'` (run_cnn_cert.py line 273). -/
def candidatesFileName (cnn version : String) : String :=
  cnn ++ "-" ++ version ++ "-units.txt"

/-- `f'{args.cnn}-{version}-scores.pth'` (run_cnn_cert.py line 285). -/
def scoresFileName (cnn version : String) : String :=
  cnn ++ "-" ++ version ++ "-scores.pth"

end NeuronDesc

namespace NeuronDesc

/-! ## Sweep dispatch (run_captioner_sweep.py lines 261-292) -/

/-- One call to `evaluate(...)`: the keyword arguments passed. Beam sizes
come from an integer `arange` and temperatures from a float `arange`; both
are carried as exact rationals. A `none` field means the keyword was not
passed. -/
structure EvalCall where
  strategy : String
  mi : Option Bool
  beam_size : Option ℚ
  temperature : Option ℚ
deriving DecidableEq

/-- The dispatch on one element of `args.sweeps`: the list of `evaluate`
calls it performs, or `none` when the final `assert sweep == SWEEP_RERANK`
fails. -/
def sweepCalls (beams temps : List ℚ) (sweep : String) :
    Option (List EvalCall) :=
  if sweep = "greedy" then
    some [⟨"greedy", some false, none, none⟩]
  else if sweep = "beam" then
    some (beams.map fun b => ⟨"beam", some false, some b, none⟩)
  else if sweep = "greedy-mi" then
    some (temps.map fun t => ⟨"greedy", some true, none, some t⟩)
  else if sweep = "beam-mi" then
    some (beams.flatMap fun b =>
      temps.map fun t => ⟨"beam", some true, some b, some t⟩)
  else if sweep = "rerank" then
    some (beams.flatMap fun b =>
      temps.map fun t => ⟨"rerank", none, some b, some t⟩)
  else none

/-- The five sweep names, in the order of the `SWEEPS` tuple
(run_captioner_sweep.py lines 16-27). -/
def SWEEPS : List String :=
  ["greedy", "beam", "greedy-mi", "beam-mi", "rerank"]

/-- The beam sizes tried: `numpy.arange(args.beam_size_min,
args.beam_size_max, args.beam_size_step)`. -/
def beamSizes (bmin bmax bstep : ℚ) : List ℚ := arange bmin bmax bstep

/-- The temperatures tried: `numpy.arange(args.mi_temperature_min,
args.mi_temperature_max, args.mi_temperature_step)`. -/
def miTemperatures (tmin tmax tstep : ℚ) : List ℚ := arange tmin tmax tstep

end NeuronDesc

namespace NeuronDesc

/-! ## The `evaluate` log record (run_captioner_sweep.py lines 219-258) -/

/-- A value stored in the `log` dict. Metric scores (floats in the
program) are carried opaquely in a type `α`; the condition kwargs and the
sampled wandb images are the two non-numeric entries. -/
inductive LogVal (α : Type)
  | kwargs (kv : List (String × String))
  | num (x : α)
  | images (n : ℕ)
deriving DecidableEq

/-- The entries added when `'bleu' in args.scores`: `log['bleu']` and
`log[f'bleu-{index + 1}']` for each precision. -/
def bleuEntries {α : Type} (score : α) (precisions : List α) :
    List (String × LogVal α) :=
  ("bleu", LogVal.num score) ::
    precisions.enum.map fun ip =>
      ("bleu-" ++ toString (ip.1 + 1), LogVal.num ip.2)

/-- The entries added when `'rouge' in args.scores`:
`log[f'{kind}-{key}']` for each kind and inner key of the rouge result. -/
def rougeEntries {α : Type} (rouge : List (String × List (String × α))) :
    List (String × LogVal α) :=
  rouge.flatMap fun ks =>
    ks.2.map fun kv => (ks.1 ++ "-" ++ kv.1, LogVal.num kv.2)

/-- The entries added when `'bert-score' in args.scores`:
`log[f'bert_score-{kind}']` for each kind. -/
def bertEntries {α : Type} (bert : List (String × α)) :
    List (String × LogVal α) :=
  bert.map fun kv => ("bert_score-" ++ kv.1, LogVal.num kv.2)

/-- The record built by one `evaluate` call, in insertion order: the
condition kwargs, then each metric section guarded by membership of its
name in `args.scores`, then the sampled images. -/
def evaluateLog {α : Type} (scores : List String)
    (cond : List (String × String)) (bleuScore : α) (bleuPrecisions : List α)
    (rouge : List (String × List (String × α))) (bert : List (String × α))
    (samples : ℕ) : List (String × LogVal α) :=
  ("condition", LogVal.kwargs cond) ::
    ((if "bleu" ∈ scores then bleuEntries bleuScore bleuPrecisions else []) ++
      (if "rouge" ∈ scores then rougeEntries rouge else []) ++
      (if "bert-score" ∈ scores then bertEntries bert else []) ++
      [("samples", LogVal.images samples)])

/-- The `wandb.log` calls made by one `evaluate` call: exactly one, of the
record above (run_captioner_sweep.py line 258). -/
def evaluateWandbLogs {α : Type} (scores : List String)
    (cond : List (String × String)) (bleuScore : α) (bleuPrecisions : List α)
    (rouge : List (String × List (String × α))) (bert : List (String × α))
    (samples : ℕ) : List (List (String × LogVal α)) :=
  [evaluateLog scores cond bleuScore bleuPrecisions rouge bert samples]

end NeuronDesc

namespace NeuronDesc

/-! ## Candidate spurious units (run_cnn_cert.py lines 179-185, 269-272) -/

/-- The two experiments of `EXPERIMENTS`; their key strings live in
`lv.dissection.zoo`, outside these files, so the choice is embedded as an
inductive type. -/
inductive Experiment
  | spuriousImagenetText
  | spuriousImagenetColor
deriving DecidableEq

/-- The per-experiment target words (run_cnn_cert.py lines 179-185). -/
def targetWords : Experiment → List String
  | Experiment.spuriousImagenetText => ["word", "text", "letter"]
  | Experiment.spuriousImagenetColor =>
      ["red", "yellow", "green", "blue", "cyan", "purple", "brown", "black",
        "white", "gray"]

/-- `[index for index, caption in enumerate(captions)
if any(word in caption.lower() for word in target_words)]`
(run_cnn_cert.py lines 269-272). -/
def candidateIndices (words : List String) (captions : List String) :
    List ℕ :=
  ((captions.enum).filter fun ic =>
    words.any fun w => containsSub w.data (pyLower ic.2.data)).map Prod.fst

end NeuronDesc

namespace NeuronDesc

/-! ## Captioner cache branch (run_captioner_sweep.py lines 189-216) -/

/-- What the captioner block did: whether the decoder came from the cache
(with the encoder taken from it), whether train features were precomputed,
and whether a new captioner was saved. -/
structure CaptionerSetup where
  loadedFromCache : Bool
  encoderFromDecoder : Bool
  precomputedTrainFeatures : Bool
  savedCaptioner : Bool
deriving DecidableEq

/-- The branch on `captioner_file.is_file() and splits_file.is_file()`:
load the decoder (taking its encoder) in the first case; otherwise build a
fresh encoder and decoder, precompute train features only under
`--precompute-features`, fit, and save. -/
def captionerSetup (captionerSt splitsSt : FileState)
    (precomputeFeatures : Bool) : CaptionerSetup :=
  if captionerSt = FileState.file ∧ splitsSt = FileState.file then
    ⟨true, true, false, false⟩
  else
    ⟨false, false, precomputeFeatures, true⟩

end NeuronDesc

namespace NeuronDesc

/-! ## Ablation conditions and trial loops (run_cnn_cert.py lines 302-375) -/

/-- Stable insertion of `x` into a list sorted descending by `key`,
placing `x` before the first strictly smaller element. -/
def insertDesc (key : ℕ → ℚ) (x : ℕ) : List ℕ → List ℕ
  | [] => [x]
  | y :: ys => if key y ≤ key x then x :: y :: ys else y :: insertDesc key x ys

/-- Embedding of `sorted(l, key=key, reverse=True)`: a stable descending
insertion sort. -/
def sortDesc (key : ℕ → ℚ) (l : List ℕ) : List ℕ :=
  l.foldr (insertDesc key) []

/-- `scores.__getitem__` as a key function (indices are in range in the
program; out-of-range defaults to 0). -/
def scoreKey (scores : List ℚ) (i : ℕ) : ℚ := scores.getD i 0

/-- The indices eligible for ablation under one condition
(run_cnn_cert.py lines 308-322). `sampled` stands for the result of
`random.sample(range(len(dissected)), k=len(candidate_indices))`. -/
def indicesFor (condition : String) (candidates : List ℕ) (scores : List ℚ)
    (nUnits : ℕ) (sampled : List ℕ) : List ℕ :=
  if condition = "sort-spurious" then
    sortDesc (scoreKey scores) candidates
  else if condition = "sort-all" then
    (sortDesc (scoreKey scores) (List.range nUnits)).take candidates.length
  else
    sampled

/-- `trials = args.n_random_trials if condition == CONDITION_RANDOM else 1`
(run_cnn_cert.py lines 303-306). -/
def trialsFor (condition : String) (nRandomTrials : ℕ) : ℕ :=
  if condition = "random" then nRandomTrials else 1

/-- The number of units ablated at one fraction:
`int(fraction * len(indices))` (run_cnn_cert.py line 327). -/
def nAblated (fraction : ℚ) (nIndices : ℕ) : ℤ :=
  pyInt (fraction * (nIndices : ℚ))

/-- The ablation fractions: `numpy.arange(args.ablation_min,
args.ablation_max, args.ablation_step_size)` (run_cnn_cert.py
lines 324-325). -/
def ablationFractions (amin amax astep : ℚ) : List ℚ := arange amin amax astep

/-- The nest of trial loops of run_cnn_cert.py (lines 175, 187, 302, 308,
326): experiments, then versions, then conditions, then trial numbers
`range(1, trials + 1)`, then ablation fractions. -/
def certTrials (experiments : List Experiment) (versions conditions : List String)
    (nRandomTrials : ℕ) (amin amax astep : ℚ) :
    List (Experiment × String × String × ℕ × ℚ) :=
  experiments.flatMap fun e =>
    versions.flatMap fun v =>
      conditions.flatMap fun c =>
        (List.range' 1 (trialsFor c nRandomTrials)).flatMap fun t =>
          (ablationFractions amin amax astep).map fun f => (e, v, c, t, f)

end NeuronDesc


namespace NeuronDesc

/-! ## Helper lemmas -/

theorem seqStarts_iff {α : Type} [DecidableEq α] (a b : List α) :
    seqStarts a b = true ↔ ∃ m, b = a ++ m := by
  induction a generalizing b with
  | nil => simp [seqStarts]
  | cons x xs ih =>
    cases b with
    | nil =>
      simp [seqStarts]
    | cons y ys =>
      simp only [seqStarts, Bool.and_eq_true, decide_eq_true_eq, ih,
        List.cons_append, List.cons.injEq]
      constructor
      · rintro ⟨h1, m, h2⟩
        exact ⟨m, h1.symm, h2⟩
      · rintro ⟨m, h1, h2⟩
        exact ⟨h1.symm, m, h2⟩

theorem seqStarts_self_append {α : Type} [DecidableEq α] (a m : List α) :
    seqStarts a (a ++ m) = true :=
  (seqStarts_iff a (a ++ m)).mpr ⟨m, rfl⟩

theorem seqStarts_append_of {α : Type} [DecidableEq α] {a b : List α}
    (m : List α) (h : seqStarts a b = true) : seqStarts a (b ++ m) = true := by
  rcases (seqStarts_iff a b).mp h with ⟨r, rfl⟩
  rw [List.append_assoc]
  exact seqStarts_self_append a (r ++ m)

theorem seqStarts_antisymm {α : Type} [DecidableEq α] {a b : List α}
    (h1 : seqStarts a b = true) (h2 : seqStarts b a = true) : a = b := by
  rcases (seqStarts_iff a b).mp h1 with ⟨m, rfl⟩
  rcases (seqStarts_iff _ _).mp h2 with ⟨m2, hm⟩
  have hlen := congrArg List.length hm
  simp only [List.length_append] at hlen
  have hm0 : m = [] := List.length_eq_zero.mp (by omega)
  simp [hm0]

theorem containsSub_iff {n h : List Char} :
    containsSub n h = true ↔ ∃ p q, h = p ++ n ++ q := by
  induction h with
  | nil =>
    simp only [containsSub, seqStarts_iff]
    constructor
    · rintro ⟨m, hm⟩
      exact ⟨[], m, by simpa using hm⟩
    · rintro ⟨p, q, hpq⟩
      rcases List.append_eq_nil.mp (List.append_eq_nil.mp hpq.symm).1 with ⟨-, h2⟩
      exact ⟨q, by simp [h2, (List.append_eq_nil.mp hpq.symm).2]⟩
  | cons c cs ih =>
    simp only [containsSub, Bool.or_eq_true, seqStarts_iff, ih]
    constructor
    · rintro (⟨m, hm⟩ | ⟨p, q, hpq⟩)
      · exact ⟨[], m, by simp [hm]⟩
      · exact ⟨c :: p, q, by simp [hpq]⟩
    · rintro ⟨p, q, hpq⟩
      cases p with
      | nil => exact Or.inl ⟨q, by simpa using hpq⟩
      | cons x xs =>
        right
        refine ⟨xs, q, ?_⟩
        have := hpq
        simp only [List.cons_append, List.cons.injEq] at this
        exact this.2

theorem hasExt_append (s ext : String) : hasExt (s ++ ext) ext = true := by
  simp only [hasExt, listEndsWith, String.data_append, List.reverse_append]
  exact seqStarts_append_of _ (by
    rw [seqStarts_iff]
    exact ⟨[], by simp⟩)

theorem hasExt_append_of (s pre ext : String) (h : hasExt pre ext = true) :
    hasExt (s ++ pre) ext = true := by
  simp only [hasExt, listEndsWith, String.data_append, List.reverse_append]
  simp only [hasExt, listEndsWith] at h
  exact seqStarts_append_of _ h

theorem length_arange (a b s : ℚ) :
    (arange a b s).length = arangeLen a b s := by
  unfold arange
  rw [List.length_map, List.length_range]

theorem getElem?_arange {a b s : ℚ} {i : ℕ} (hi : i < arangeLen a b s) :
    (arange a b s)[i]? = some (a + (i : ℚ) * s) := by
  unfold arange
  rw [List.getElem?_map, List.getElem?_range hi]
  rfl

theorem mem_arange_iff {a b s x : ℚ} :
    x ∈ arange a b s ↔ ∃ i < arangeLen a b s, x = a + (i : ℚ) * s := by
  unfold arange
  constructor
  · intro hx
    rcases List.mem_map.mp hx with ⟨i, hi, rfl⟩
    exact ⟨i, List.mem_range.mp hi, rfl⟩
  · rintro ⟨i, hi, rfl⟩
    exact List.mem_map.mpr ⟨i, List.mem_range.mpr hi, rfl⟩

theorem arange_lt_stop {a b s x : ℚ} (hs : 0 < s) (hx : x ∈ arange a b s) :
    a ≤ x ∧ x < b := by
  rcases mem_arange_iff.mp hx with ⟨i, hi, rfl⟩
  constructor
  · nlinarith [Nat.cast_nonneg (α := ℚ) i]
  · have h1 : (i : ℤ) < ⌈(b - a) / s⌉ := Int.lt_toNat.mp hi
    have h2 : ((i : ℤ) : ℚ) < (b - a) / s := Int.lt_ceil.mp h1
    have h3 : (i : ℚ) * s < b - a := by
      rw [lt_div_iff₀ hs] at h2
      simpa using h2
    linarith

theorem arange_mono {a s : ℚ} (hs : 0 ≤ s) {i j : ℕ} (hij : i ≤ j) :
    a + (i : ℚ) * s ≤ a + (j : ℚ) * s := by
  have : (i : ℚ) ≤ (j : ℚ) := by exact_mod_cast hij
  nlinarith

theorem pyInt_mono {q1 q2 : ℚ} (h : q1 ≤ q2) : pyInt q1 ≤ pyInt q2 := by
  unfold pyInt
  split_ifs with h1 h2 h2
  · exact Int.floor_le_floor h
  · exact absurd (le_trans h1 h) h2
  · have ha : ⌈q1⌉ ≤ 0 := Int.ceil_le.mpr
      (by push_neg at h1; exact_mod_cast le_of_lt h1)
    have hb : (0 : ℤ) ≤ ⌊q2⌋ := Int.floor_nonneg.mpr h2
    omega
  · exact Int.ceil_le_ceil h

theorem pyInt_natCast (n : ℕ) : pyInt (n : ℚ) = n := by
  simp [pyInt, Nat.cast_nonneg, Int.floor_natCast]

end NeuronDesc

namespace NeuronDesc

/-! ## More helper lemmas: nested loops, enumeration, sorting, splitting -/

theorem length_flatMap_map {α β γ : Type} (l : List α) (m : List β)
    (f : α → β → γ) :
    (l.flatMap fun a => m.map (f a)).length = l.length * m.length := by
  induction l with
  | nil => simp
  | cons x xs ih =>
    simp only [List.flatMap_cons, List.length_append, List.length_map, ih,
      List.length_cons]
    ring

theorem mem_flatMap_map {α β γ : Type} {l : List α} {m : List β}
    {f : α → β → γ} {c : γ} :
    c ∈ (l.flatMap fun a => m.map (f a)) ↔ ∃ a ∈ l, ∃ b ∈ m, c = f a b := by
  simp only [List.mem_flatMap, List.mem_map]
  constructor
  · rintro ⟨a, ha, b, hb, rfl⟩
    exact ⟨a, ha, b, hb, rfl⟩
  · rintro ⟨a, ha, b, hb, rfl⟩
    exact ⟨a, ha, b, hb, rfl⟩

theorem getElem?_flatMap_map {α β γ : Type} {l : List α} {m : List β}
    (f : α → β → γ) {i j : ℕ} {x : α} {y : β}
    (hx : l[i]? = some x) (hy : m[j]? = some y) :
    (l.flatMap fun a => m.map (f a))[i * m.length + j]? = some (f x y) := by
  induction l generalizing i with
  | nil => simp at hx
  | cons a as ih =>
    cases i with
    | zero =>
      have hj : j < m.length := by
        by_contra hc
        push_neg at hc
        rw [List.getElem?_eq_none hc] at hy
        exact Option.noConfusion hy
      simp only [List.flatMap_cons, Nat.zero_mul, Nat.zero_add]
      rw [List.getElem?_append_left (by simpa using hj), List.getElem?_map, hy]
      simp only [List.getElem?_cons_zero, Option.some.injEq] at hx
      rw [hx]
      rfl
    | succ i' =>
      simp only [List.getElem?_cons_succ] at hx
      have harith : (i' + 1) * m.length + j =
          (m.map (f a)).length + (i' * m.length + j) := by
        simp [List.length_map]
        ring
      rw [List.flatMap_cons, harith,
        List.getElem?_append_right (Nat.le_add_right _ _)]
      simp only [Nat.add_sub_cancel_left]
      exact ih hx

theorem mem_map_fst_filter_enum {α : Type} (p : α → Bool) (l : List α)
    (i : ℕ) :
    (i ∈ (l.enum.filter fun x => p x.2).map Prod.fst) ↔
      ∃ a, l[i]? = some a ∧ p a = true := by
  constructor
  · intro hm
    rcases List.mem_map.mp hm with ⟨⟨k, a⟩, hk, hfst⟩
    rcases List.mem_filter.mp hk with ⟨henum, hp⟩
    cases hfst
    exact ⟨a, List.mk_mem_enum_iff_getElem?.mp henum, hp⟩
  · rintro ⟨a, ha, hp⟩
    exact List.mem_map.mpr ⟨(i, a),
      List.mem_filter.mpr ⟨List.mk_mem_enum_iff_getElem?.mpr ha, hp⟩, rfl⟩

theorem candidateIndices_length_le (words : List String)
    (captions : List String) :
    (candidateIndices words captions).length ≤ captions.length := by
  unfold candidateIndices
  rw [List.length_map]
  exact le_trans (List.length_filter_le _ _) (le_of_eq List.enum_length)

theorem length_insertDesc (key : ℕ → ℚ) (x : ℕ) (l : List ℕ) :
    (insertDesc key x l).length = l.length + 1 := by
  induction l with
  | nil => rfl
  | cons y ys ih =>
    unfold insertDesc
    split_ifs with h
    · rfl
    · simp [ih]

theorem length_sortDesc (key : ℕ → ℚ) (l : List ℕ) :
    (sortDesc key l).length = l.length := by
  induction l with
  | nil => rfl
  | cons x xs ih =>
    show (insertDesc key x (sortDesc key xs)).length = xs.length + 1
    rw [length_insertDesc, ih]

theorem pySplit_no_sep {sep : Char} {l : List Char} (h : sep ∉ l) :
    pySplit sep l = [l] := by
  induction l with
  | nil => rfl
  | cons c cs ih =>
    have hc : c ≠ sep := fun hc => h (hc ▸ List.mem_cons_self c cs)
    have hcs : sep ∉ cs := fun hm => h (List.mem_cons_of_mem c hm)
    unfold pySplit
    rw [ih hcs]
    simp [hc]

theorem pySplit_ne_nil (sep : Char) (l : List Char) : pySplit sep l ≠ [] := by
  induction l with
  | nil => simp [pySplit]
  | cons c cs ih =>
    unfold pySplit
    cases h : pySplit sep cs with
    | nil => exact absurd h ih
    | cons w ws => split_ifs <;> simp

theorem pySplit_append_sep {sep : Char} {c r : List Char} (h : sep ∉ c) :
    pySplit sep (c ++ sep :: r) = c :: pySplit sep r := by
  induction c with
  | nil =>
    show pySplit sep (sep :: r) = [] :: pySplit sep r
    cases hr : pySplit sep r with
    | nil => exact absurd hr (pySplit_ne_nil sep r)
    | cons w ws =>
      rw [pySplit, hr]
      simp
  | cons a as ih =>
    have ha : a ≠ sep := fun hc => h (hc ▸ List.mem_cons_self a as)
    have has : sep ∉ as := fun hm => h (List.mem_cons_of_mem a hm)
    show pySplit sep (a :: (as ++ sep :: r)) = (a :: as) :: pySplit sep r
    rw [pySplit, ih has]
    simp [ha]

theorem pySplit_pyJoin {sep : Char} {cs : List (List Char)} (h1 : cs ≠ [])
    (h2 : ∀ c ∈ cs, sep ∉ c) : pySplit sep (pyJoin sep cs) = cs := by
  induction cs with
  | nil => exact absurd rfl h1
  | cons c rest ih =>
    cases rest with
    | nil =>
      show pySplit sep (pyJoin sep [c]) = [c]
      exact pySplit_no_sep (h2 c (List.mem_cons_self c []))
    | cons d ds =>
      show pySplit sep (c ++ sep :: pyJoin sep (d :: ds)) = c :: d :: ds
      rw [pySplit_append_sep (h2 c (List.mem_cons_self c _))]
      rw [ih (List.cons_ne_nil d ds)
        (fun x hx => h2 x (List.mem_cons_of_mem c hx))]

end NeuronDesc

namespace NeuronDesc

/-! ## Helper lemmas for the evaluate log record -/

theorem mem_evaluateLog_iff {α : Type} {scores : List String}
    {cond : List (String × String)} {bleuScore : α} {bleuPrecisions : List α}
    {rouge : List (String × List (String × α))} {bert : List (String × α)}
    {samples : ℕ} {e : String × LogVal α} :
    e ∈ evaluateLog scores cond bleuScore bleuPrecisions rouge bert samples ↔
      e = ("condition", LogVal.kwargs cond)
      ∨ ("bleu" ∈ scores ∧ e ∈ bleuEntries bleuScore bleuPrecisions)
      ∨ ("rouge" ∈ scores ∧ e ∈ rougeEntries rouge)
      ∨ ("bert-score" ∈ scores ∧ e ∈ bertEntries bert)
      ∨ e = ("samples", LogVal.images samples) := by
  unfold evaluateLog
  by_cases h1 : "bleu" ∈ scores <;> by_cases h2 : "rouge" ∈ scores <;>
    by_cases h3 : "bert-score" ∈ scores <;>
    simp [h1, h2, h3, List.mem_cons, List.mem_append, or_assoc]

theorem rougeEntries_shape {α : Type}
    {rouge : List (String × List (String × α))} {e : String × LogVal α}
    (he : e ∈ rougeEntries rouge) :
    ∃ k1 k2 x, e = (k1 ++ "-" ++ k2, LogVal.num x) := by
  unfold rougeEntries at he
  rcases List.mem_flatMap.mp he with ⟨ks, -, hm⟩
  rcases List.mem_map.mp hm with ⟨kv, -, rfl⟩
  exact ⟨ks.1, kv.1, kv.2, rfl⟩

theorem bertEntries_shape {α : Type} {bert : List (String × α)}
    {e : String × LogVal α} (he : e ∈ bertEntries bert) :
    ∃ k x, e = ("bert_score-" ++ k, LogVal.num x) := by
  unfold bertEntries at he
  rcases List.mem_map.mp he with ⟨kv, -, rfl⟩
  exact ⟨kv.1, kv.2, rfl⟩

theorem bleuEntries_shape {α : Type} {bleuScore : α} {bleuPrecisions : List α}
    {e : String × LogVal α} (he : e ∈ bleuEntries bleuScore bleuPrecisions) :
    e = ("bleu", LogVal.num bleuScore)
    ∨ ∃ k x, e = ("bleu-" ++ k, LogVal.num x) := by
  unfold bleuEntries at he
  rcases List.mem_cons.mp he with h | h
  · exact Or.inl h
  · rcases List.mem_map.mp h with ⟨ip, -, rfl⟩
    exact Or.inr ⟨toString (ip.1 + 1), ip.2, rfl⟩

theorem dash_mem_append_middle (k1 k2 : String) :
    '-' ∈ (k1 ++ "-" ++ k2).data := by
  rw [String.data_append, String.data_append]
  refine List.mem_append.mpr (Or.inl (List.mem_append.mpr (Or.inr ?_)))
  decide

theorem dash_mem_append_left (pre k : String) (hp : '-' ∈ pre.data) :
    '-' ∈ (pre ++ k).data := by
  rw [String.data_append]
  exact List.mem_append.mpr (Or.inl hp)

theorem key_ne_of_dash {a b : String} (ha : '-' ∈ a.data)
    (hb : '-' ∉ b.data) : a ≠ b := by
  intro h
  exact hb (h ▸ ha)

end NeuronDesc

namespace NeuronDesc

/-! ## Claim C8: device selection falls back to cpu without CUDA -/

/-- C8: In both scripts, whenever `cuda.is_available()` returns false the
selected device is `"cpu"` regardless of the `--device` argument; when CUDA
is available the argument takes effect (with `"cuda"` substituted for a
missing or empty argument), because the expression parses as
`(args.device or 'cuda') if cuda.is_available() else 'cpu'`. -/
theorem c8_device_cpu_when_no_cuda (d : Option String) :
    deviceOf d false = "cpu"
    ∧ deviceOf none true = "cuda"
    ∧ deviceOf (some "") true = "cuda"
    ∧ deviceOf (some "cuda:1") true = "cuda:1"
    ∧ (∀ s : String, s ≠ "" → deviceOf (some s) true = s) := by
  refine ⟨rfl, rfl, rfl, rfl, fun s hs => ?_⟩
  simp [deviceOf, pyOrStr, hs]

/-! ## Claim C7: results-directory setup -/

/-- C7: During directory setup, the results directory tree is deleted iff
`--clear-results-dir` is set and the directory exists: with the flag set
and the directory existing, every path strictly under the results root
ends up absent; with the flag unset, or the directory absent, every
pre-existing path keeps its state; and the directory itself is created
(as a directory) when absent. -/
theorem c7_results_dir_setup (clear : Bool) (root p : Path) (fs : FS) :
    (clear = true → existsPath fs root = true → seqStarts root p = true →
      p ≠ root → setupResultsDir clear root fs p = FileState.absent)
    ∧ (clear = false → fs p ≠ FileState.absent →
      setupResultsDir clear root fs p = fs p)
    ∧ (existsPath fs root = false → fs p ≠ FileState.absent →
      setupResultsDir clear root fs p = fs p)
    ∧ (fs root = FileState.absent →
      setupResultsDir clear root fs root = FileState.dir) := by
  have hrefl : seqStarts root root = true :=
    (seqStarts_iff root root).mpr ⟨[], (List.append_nil root).symm⟩
  refine ⟨?_, ?_, ?_, ?_⟩
  · rintro rfl hex hsub hne
    have hdel : rmtree root fs p = FileState.absent := by
      simp [rmtree, hsub]
    have hnp : ¬(seqStarts p root = true) := by
      intro hps
      exact hne (seqStarts_antisymm hps hsub)
    simp [setupResultsDir, hex, mkdirParents, hnp, hdel]
  · rintro rfl hp
    simp [setupResultsDir, mkdirParents, hp]
  · intro hex hp
    simp [setupResultsDir, hex, mkdirParents, hp]
  · intro habs
    have hex : existsPath fs root = false := by
      simp [existsPath, habs]
    simp [setupResultsDir, hex, mkdirParents, habs, hrefl]

/-- Witness for C7 at a concrete filesystem: with the flag set and the
results directory existing, a file inside it is deleted. -/
theorem c7_results_dir_setup_witness :
    setupResultsDir true ["results"]
      (fun p => if p = ["results"] then FileState.dir
        else if p = ["results", "lm.pth"] then FileState.file
        else FileState.absent) ["results", "lm.pth"] = FileState.absent :=
  (c7_results_dir_setup true ["results"] ["results", "lm.pth"]
    (fun p => if p = ["results"] then FileState.dir
      else if p = ["results", "lm.pth"] then FileState.file
      else FileState.absent)).1 rfl (by decide) (by decide) (by decide)

/-! ## Claim C6: the captioner cache branch -/

/-- C6: The sweep script loads the cached captioner, taking its encoder,
only when both captioner.pth and splits.pth are regular files (hence only
when both exist); if either file is missing it builds a fresh pair,
precomputes train features exactly when `--precompute-features` is set,
and saves the captioner. -/
theorem c6_captioner_cache (c s : FileState) (p : Bool) :
    ((captionerSetup c s p).loadedFromCache = true →
      c ≠ FileState.absent ∧ s ≠ FileState.absent ∧
      captionerSetup c s p = ⟨true, true, false, false⟩)
    ∧ ((c = FileState.absent ∨ s = FileState.absent) →
      captionerSetup c s p = ⟨false, false, p, true⟩)
    ∧ (c = FileState.file → s = FileState.file →
      captionerSetup c s p = ⟨true, true, false, false⟩) := by
  cases c <;> cases s <;> cases p <;> decide

/-- Witness for C6: with splits.pth absent the captioner is retrained and
saved even though captioner.pth is present. -/
theorem c6_captioner_cache_witness :
    (FileState.file = FileState.absent ∨ FileState.absent = FileState.absent)
    ∧ captionerSetup FileState.file FileState.absent true =
      ⟨false, false, true, true⟩ :=
  ⟨Or.inr rfl,
    (c6_captioner_cache FileState.file FileState.absent true).2.1
      (Or.inr rfl)⟩

/-! ## Claim C1: cached artifacts and their file types -/

/-- C1 counterexample: the captions cache is reloaded from disk when its
file exists, yet its file name ends in .txt, not .pth. -/
theorem c1_counterexample_txt_captions_cache :
    captionsAction true = CacheAction.load
    ∧ hasExt (captionsFileName "resnet18" "50pct") ".pth" = false
    ∧ hasExt (captionsFileName "resnet18" "50pct") ".txt" = true := by
  decide

/-- C1 amended: every cache the scripts reload is a .pth file except the
captions cache, whose file is .txt; each cache loads when its file exists
and computes-and-writes otherwise, except that the language model is only
computed when an MI sweep is requested, the per-unit scores block only
runs when a sort condition is requested, and the captioner loads only when
both captioner.pth and splits.pth are regular files. -/
theorem c1_cache_artifacts_amended (cnn ver : String)
    (sweeps conditions : List String) :
    hasExt sweepSplitsFileName ".pth" = true
    ∧ hasExt lmFileName ".pth" = true
    ∧ hasExt captionerFileName ".pth" = true
    ∧ hasExt certSplitsFileName ".pth" = true
    ∧ hasExt (cnnFileName cnn ver) ".pth" = true
    ∧ hasExt (scoresFileName cnn ver) ".pth" = true
    ∧ hasExt (captionsFileName cnn ver) ".txt" = true
    ∧ existsCacheAction true = CacheAction.load
    ∧ existsCacheAction false = CacheAction.computeAndWrite
    ∧ lmAction true sweeps = CacheAction.load
    ∧ ("greedy-mi" ∈ sweeps ∨ "beam-mi" ∈ sweeps →
      lmAction false sweeps = CacheAction.computeAndWrite)
    ∧ ("greedy-mi" ∉ sweeps → "beam-mi" ∉ sweeps →
      lmAction false sweeps = CacheAction.skip)
    ∧ captionerAction true true = CacheAction.load
    ∧ (∀ a b : Bool, a = false ∨ b = false →
      captionerAction a b = CacheAction.computeAndWrite)
    ∧ captionsAction true = CacheAction.load
    ∧ captionsAction false = CacheAction.computeAndWrite
    ∧ ("sort-spurious" ∈ conditions ∨ "sort-all" ∈ conditions →
      scoresAction conditions true = CacheAction.load
      ∧ scoresAction conditions false = CacheAction.computeAndWrite)
    ∧ ("sort-spurious" ∉ conditions → "sort-all" ∉ conditions →
      ∀ e : Bool, scoresAction conditions e = CacheAction.skip)
    ∧ candidatesAction = CacheAction.computeAndWrite := by
  refine ⟨by decide, by decide, by decide, by decide,
    hasExt_append_of ((cnn ++ "-") ++ ver) ".pth" ".pth" (by decide),
    hasExt_append_of ((cnn ++ "-") ++ ver) "-scores.pth" ".pth" (by decide),
    hasExt_append_of ((cnn ++ "-") ++ ver) "-captions.txt" ".txt" (by decide),
    by decide, by decide, by simp [lmAction], ?_, ?_, by decide, ?_,
    by decide, by decide, ?_, ?_, rfl⟩
  · intro h
    have hc : (sweeps.contains "greedy-mi" || sweeps.contains "beam-mi")
        = true := by
      rcases h with h | h <;> simp [h]
    unfold lmAction
    rw [if_neg (by decide), if_pos hc]
  · intro h1 h2
    have hc : (sweeps.contains "greedy-mi" || sweeps.contains "beam-mi")
        = false := by
      simp [h1, h2]
    unfold lmAction
    rw [if_neg (by decide), if_neg (by rw [hc]; exact Bool.false_ne_true)]
  · intro a b h
    rcases h with rfl | rfl
    · cases b <;> decide
    · cases a <;> decide
  · intro h
    have hc : (conditions.contains "sort-spurious"
        || conditions.contains "sort-all") = true := by
      rcases h with h | h <;> simp [h]
    constructor
    · show scoresAction conditions true = CacheAction.load
      unfold scoresAction
      rw [if_pos hc]
      decide
    · show scoresAction conditions false = CacheAction.computeAndWrite
      unfold scoresAction
      rw [if_pos hc]
      decide
  · intro h1 h2 e
    have hc : (conditions.contains "sort-spurious"
        || conditions.contains "sort-all") = false := by
      simp [h1, h2]
    unfold scoresAction
    rw [if_neg (by rw [hc]; exact Bool.false_ne_true)]

/-- Witness for C1: with an MI sweep requested and lm.pth missing, the
language model is trained and saved. -/
theorem c1_cache_artifacts_amended_witness :
    ("greedy-mi" ∈ ["greedy-mi"] ∨ "beam-mi" ∈ ["greedy-mi"])
    ∧ lmAction false ["greedy-mi"] = CacheAction.computeAndWrite :=
  ⟨Or.inl (List.mem_cons_self _ _),
    ((c1_cache_artifacts_amended "resnet18" "50pct" ["greedy-mi"]
      []).2.2.2.2.2.2.2.2.2.2.1 (Or.inl (List.mem_cons_self _ _)))⟩

end NeuronDesc

namespace NeuronDesc

/-! ## Claim C10: captions cache round trip -/

/-- C10 counterexample: for an empty caption list (no caption contains a
newline), writing the joined captions and re-splitting yields one empty
caption, not the original empty list, so the reload does not have the
same length. -/
theorem c10_counterexample_empty_captions :
    pySplit (Char.ofNat 10) (pyJoin (Char.ofNat 10) []) = [[]]
    ∧ ([[]] : List (List Char)) ≠ []
    ∧ (pySplit (Char.ofNat 10) (pyJoin (Char.ofNat 10) [])).length ≠
      ([] : List (List Char)).length := by
  decide

/-- C10 amended: provided the caption list is nonempty and no caption
contains a newline character, writing the joined captions and re-reading
with split yields the original list, and in particular the reload has the
same length, so the assertion on a reload of a cache written by the same
run holds. -/
theorem c10_captions_roundtrip_amended (captions : List (List Char))
    (h1 : captions ≠ [])
    (h2 : ∀ c ∈ captions, Char.ofNat 10 ∉ c) :
    pySplit (Char.ofNat 10) (pyJoin (Char.ofNat 10) captions) = captions
    ∧ (pySplit (Char.ofNat 10) (pyJoin (Char.ofNat 10) captions)).length =
      captions.length := by
  have h := pySplit_pyJoin h1 h2
  exact ⟨h, by rw [h]⟩

/-- Witness for C10 at two concrete captions. -/
theorem c10_captions_roundtrip_amended_witness :
    (["ab".data, "cd".data] ≠ []
      ∧ (∀ c ∈ [String.data "ab", String.data "cd"], Char.ofNat 10 ∉ c))
    ∧ pySplit (Char.ofNat 10)
        (pyJoin (Char.ofNat 10) ["ab".data, "cd".data]) =
        ["ab".data, "cd".data] :=
  ⟨⟨by decide, by decide⟩,
    (c10_captions_roundtrip_amended ["ab".data, "cd".data] (by decide)
      (by decide)).1⟩

/-! ## Claim C2: the sweep dispatch -/

/-- C2: Every element of `--sweeps` dispatches to exactly one of the five
sweep kinds: greedy runs one evaluation with strategy greedy and mi false;
beam evaluates strategy beam, mi false, once per beam size; greedy-mi
evaluates strategy greedy, mi true, once per temperature; beam-mi
evaluates strategy beam, mi true, per beam-size and temperature pair; and
rerank evaluates strategy rerank per pair; any other element fails the
final assertion, so no evaluation list is produced. -/
theorem c2_sweep_dispatch (bs ts : List ℚ) (s : String) :
    sweepCalls bs ts "greedy" = some [⟨"greedy", some false, none, none⟩]
    ∧ (∃ l, sweepCalls bs ts "beam" = some l ∧ l.length = bs.length ∧
      ∀ c, c ∈ l ↔ ∃ b ∈ bs, c = ⟨"beam", some false, some b, none⟩)
    ∧ (∃ l, sweepCalls bs ts "greedy-mi" = some l ∧ l.length = ts.length ∧
      ∀ c, c ∈ l ↔ ∃ t ∈ ts, c = ⟨"greedy", some true, none, some t⟩)
    ∧ (∃ l, sweepCalls bs ts "beam-mi" = some l ∧
      l.length = bs.length * ts.length ∧
      ∀ c, c ∈ l ↔ ∃ b ∈ bs, ∃ t ∈ ts, c = ⟨"beam", some true, some b, some t⟩)
    ∧ (∃ l, sweepCalls bs ts "rerank" = some l ∧
      l.length = bs.length * ts.length ∧
      ∀ c, c ∈ l ↔ ∃ b ∈ bs, ∃ t ∈ ts, c = ⟨"rerank", none, some b, some t⟩)
    ∧ ((sweepCalls bs ts s).isSome = true ↔ s ∈ SWEEPS) := by
  refine ⟨rfl, ?_, ?_, ?_, ?_, ?_⟩
  · refine ⟨_, rfl, List.length_map _ _, fun c => ?_⟩
    rw [List.mem_map]
    constructor
    · rintro ⟨b, hb, rfl⟩
      exact ⟨b, hb, rfl⟩
    · rintro ⟨b, hb, rfl⟩
      exact ⟨b, hb, rfl⟩
  · refine ⟨_, rfl, List.length_map _ _, fun c => ?_⟩
    rw [List.mem_map]
    constructor
    · rintro ⟨t, ht, rfl⟩
      exact ⟨t, ht, rfl⟩
    · rintro ⟨t, ht, rfl⟩
      exact ⟨t, ht, rfl⟩
  · refine ⟨_, rfl, length_flatMap_map bs ts _, fun c => ?_⟩
    rw [mem_flatMap_map]
  · refine ⟨_, rfl, length_flatMap_map bs ts _, fun c => ?_⟩
    rw [mem_flatMap_map]
  · unfold sweepCalls SWEEPS
    by_cases h1 : s = "greedy" <;> by_cases h2 : s = "beam" <;>
      by_cases h3 : s = "greedy-mi" <;> by_cases h4 : s = "beam-mi" <;>
      by_cases h5 : s = "rerank" <;>
      simp [h1, h2, h3, h4, h5]

end NeuronDesc

namespace NeuronDesc

/-! ## Claim C5: candidate spurious units -/

/-- C5: The candidate spurious units are exactly the indices of captions
whose lowercased text contains (as a contiguous substring) at least one of
the experiment's target words, with target words ('word', 'text',
'letter') for the spurious-text experiment and the ten listed color words
for the spurious-color experiment. -/
theorem c5_candidate_units (e : Experiment) (captions : List String)
    (i : ℕ) :
    targetWords Experiment.spuriousImagenetText = ["word", "text", "letter"]
    ∧ targetWords Experiment.spuriousImagenetColor =
      ["red", "yellow", "green", "blue", "cyan", "purple", "brown", "black",
        "white", "gray"]
    ∧ (i ∈ candidateIndices (targetWords e) captions ↔
      ∃ c, captions[i]? = some c ∧
        ∃ w ∈ targetWords e, ∃ p q, pyLower c.data = p ++ w.data ++ q) := by
  refine ⟨rfl, rfl, ?_⟩
  unfold candidateIndices
  refine Iff.trans (mem_map_fst_filter_enum
    (fun c => (targetWords e).any fun w => containsSub w.data (pyLower c.data))
    captions i) ?_
  constructor
  · rintro ⟨c, hc, hp⟩
    rcases List.any_eq_true.mp hp with ⟨w, hw, hsub⟩
    rcases containsSub_iff.mp hsub with ⟨p, q, hpq⟩
    exact ⟨c, hc, w, hw, p, q, hpq⟩
  · rintro ⟨c, hc, w, hw, p, q, hpq⟩
    exact ⟨c, hc, List.any_eq_true.mpr
      ⟨w, hw, containsSub_iff.mpr ⟨p, q, hpq⟩⟩⟩

end NeuronDesc

namespace NeuronDesc

/-! ## Claim C9: ablation loop invariants -/

/-- C9: For every condition the list of indices eligible for ablation has
length exactly the number of candidate indices (for sort-all because the
candidate indices come from enumerating the captions, whose count is the
unit count; for random by the contract of random.sample); within a trial
the ablated-unit count int(fraction * len(indices)) is monotonically
nondecreasing along the ablation fractions and, when the fractions are
genuine fractions (positive step, maximum at most 1), never exceeds the
number of candidate indices; and the random condition runs
`--n-random-trials` trials while the two sort conditions run exactly
one. -/
theorem c9_ablation_invariants (words captions : List String) (nUnits : ℕ)
    (scores : List ℚ) (sampled : List ℕ)
    (hlen : captions.length = nUnits)
    (hsample : sampled.length = (candidateIndices words captions).length)
    (amin amax astep : ℚ) (hstep : 0 < astep) (hmax : amax ≤ 1)
    (k i j : ℕ) (nRand : ℕ) :
    (indicesFor "sort-spurious" (candidateIndices words captions) scores
      nUnits sampled).length = (candidateIndices words captions).length
    ∧ (indicesFor "sort-all" (candidateIndices words captions) scores
      nUnits sampled).length = (candidateIndices words captions).length
    ∧ (indicesFor "random" (candidateIndices words captions) scores
      nUnits sampled).length = (candidateIndices words captions).length
    ∧ (i ≤ j → j < (ablationFractions amin amax astep).length →
      nAblated ((ablationFractions amin amax astep).getD i 0) k ≤
        nAblated ((ablationFractions amin amax astep).getD j 0) k)
    ∧ (∀ f ∈ ablationFractions amin amax astep, nAblated f k ≤ (k : ℤ))
    ∧ trialsFor "sort-spurious" nRand = 1
    ∧ trialsFor "sort-all" nRand = 1
    ∧ trialsFor "random" nRand = nRand := by
  have hcand : (candidateIndices words captions).length ≤ nUnits :=
    hlen ▸ candidateIndices_length_le words captions
  refine ⟨?_, ?_, ?_, ?_, ?_, rfl, rfl, rfl⟩
  · show (sortDesc (scoreKey scores) (candidateIndices words captions)).length
      = (candidateIndices words captions).length
    exact length_sortDesc _ _
  · show ((sortDesc (scoreKey scores) (List.range nUnits)).take
      (candidateIndices words captions).length).length
      = (candidateIndices words captions).length
    rw [List.length_take, length_sortDesc, List.length_range]
    exact min_eq_left hcand
  · exact hsample
  · intro hij hj
    unfold ablationFractions at hj ⊢
    rw [length_arange] at hj
    have hi : i < arangeLen amin amax astep := lt_of_le_of_lt hij hj
    rw [List.getD_eq_getElem?_getD, List.getD_eq_getElem?_getD,
      getElem?_arange hi, getElem?_arange hj]
    show nAblated (amin + (i : ℚ) * astep) k ≤
      nAblated (amin + (j : ℚ) * astep) k
    unfold nAblated
    exact pyInt_mono (mul_le_mul_of_nonneg_right
      (arange_mono (le_of_lt hstep) hij) (Nat.cast_nonneg k))
  · intro f hf
    unfold ablationFractions at hf
    have hfb := arange_lt_stop hstep hf
    have hf1 : f ≤ 1 := le_of_lt (lt_of_lt_of_le hfb.2 hmax)
    have hk : f * (k : ℚ) ≤ (k : ℚ) := by
      nlinarith [Nat.cast_nonneg (α := ℚ) k]
    calc nAblated f k = pyInt (f * (k : ℚ)) := rfl
      _ ≤ pyInt ((k : ℕ) : ℚ) := pyInt_mono hk
      _ = (k : ℤ) := pyInt_natCast k

/-- Witness for C9 at one caption containing a target word. -/
theorem c9_ablation_invariants_witness :
    (["a word"].length = 1
      ∧ [0].length = (candidateIndices ["word"] ["a word"]).length
      ∧ (0 : ℚ) < 1 ∧ (1 : ℚ) ≤ 1)
    ∧ (indicesFor "random" (candidateIndices ["word"] ["a word"])
        [2] 1 [0]).length = (candidateIndices ["word"] ["a word"]).length :=
  ⟨⟨by decide, by decide, by decide, by decide⟩,
    (c9_ablation_invariants ["word"] ["a word"] 1 [2] [0] (by decide)
      (by decide) 0 1 1 (by decide) (by decide) 3 0 1 5).2.2.1⟩

end NeuronDesc

namespace NeuronDesc

/-! ## Claim C4: sweep grids and the ablation trial nest -/

/-- C4: The beam-mi and rerank sweeps evaluate the full Cartesian product
of beam sizes and temperatures, beam-size-major (the call at flat position
`i * |temps| + j` carries the i-th beam size and j-th temperature), with
the `arange` upper bounds excluded; and the ablation script nests its
trials over experiments, versions, conditions, trial numbers and ablation
fractions `arange(ablation-min, ablation-max, ablation-step-size)`. -/
theorem c4_sweep_grids (bs ts : List ℚ) (i j : ℕ) (b t : ℚ)
    (hbi : bs[i]? = some b) (htj : ts[j]? = some t)
    (lo hi stp : ℚ) (hs : 0 < stp)
    (E : List Experiment) (V Cs : List String) (nR : ℕ)
    (amin amax astep : ℚ) (e : Experiment) (v c : String) (tr : ℕ)
    (f : ℚ) :
    (∃ l, sweepCalls bs ts "beam-mi" = some l
      ∧ l[i * ts.length + j]? = some ⟨"beam", some true, some b, some t⟩
      ∧ l.length = bs.length * ts.length)
    ∧ (∃ l, sweepCalls bs ts "rerank" = some l
      ∧ l[i * ts.length + j]? = some ⟨"rerank", none, some b, some t⟩
      ∧ l.length = bs.length * ts.length)
    ∧ (∀ x ∈ arange lo hi stp, lo ≤ x ∧ x < hi)
    ∧ ((e, v, c, tr, f) ∈ certTrials E V Cs nR amin amax astep ↔
      e ∈ E ∧ v ∈ V ∧ c ∈ Cs ∧ 1 ≤ tr ∧ tr ≤ trialsFor c nR
        ∧ f ∈ ablationFractions amin amax astep) := by
  refine ⟨⟨_, rfl, getElem?_flatMap_map _ hbi htj,
      length_flatMap_map bs ts _⟩,
    ⟨_, rfl, getElem?_flatMap_map _ hbi htj, length_flatMap_map bs ts _⟩,
    fun x hx => arange_lt_stop hs hx, ?_⟩
  constructor
  · intro hm
    unfold certTrials at hm
    rcases List.mem_flatMap.mp hm with ⟨e1, he1, hm1⟩
    rcases List.mem_flatMap.mp hm1 with ⟨v1, hv1, hm2⟩
    rcases List.mem_flatMap.mp hm2 with ⟨c1, hc1, hm3⟩
    rcases List.mem_flatMap.mp hm3 with ⟨t1, ht1, hm4⟩
    rcases List.mem_map.mp hm4 with ⟨f1, hf1, heq⟩
    simp only [Prod.mk.injEq] at heq
    obtain ⟨rfl, rfl, rfl, rfl, rfl⟩ := heq
    have hr := List.mem_range'_1.mp ht1
    exact ⟨he1, hv1, hc1, hr.1, by omega, hf1⟩
  · rintro ⟨he, hv, hc, h1, h2, hf⟩
    unfold certTrials
    exact List.mem_flatMap.mpr ⟨e, he, List.mem_flatMap.mpr ⟨v, hv,
      List.mem_flatMap.mpr ⟨c, hc, List.mem_flatMap.mpr ⟨tr,
        List.mem_range'_1.mpr ⟨h1, by omega⟩,
        List.mem_map.mpr ⟨f, hf, rfl⟩⟩⟩⟩⟩

/-- Witness for C4: in a two-by-two grid the call at flat position
`1 * 2 + 0` is the second beam size with the first temperature. -/
theorem c4_sweep_grids_witness :
    ([(5 : ℚ), 10][1]? = some 10 ∧ [(1 : ℚ), 2][0]? = some 1
      ∧ (0 : ℚ) < 1)
    ∧ ∃ l, sweepCalls [(5 : ℚ), 10] [(1 : ℚ), 2] "beam-mi" = some l
      ∧ l[1 * [(1 : ℚ), 2].length + 0]? =
        some ⟨"beam", some true, some 10, some 1⟩
      ∧ l.length = [(5 : ℚ), 10].length * [(1 : ℚ), 2].length :=
  ⟨⟨by decide, by decide, by decide⟩,
    (c4_sweep_grids [(5 : ℚ), 10] [(1 : ℚ), 2] 1 0 10 1 (by decide)
      (by decide) 0 1 1 (by decide) [] [] [] 0 0 1 1
      Experiment.spuriousImagenetText "v" "c" 1 0).1⟩

end NeuronDesc

namespace NeuronDesc

/-! ## Claim C3: metric sections of the evaluate log -/

/-- C3: In every call to `evaluate`, the logged record contains the BLEU
score entry iff 'bleu' is in `--scores`, the ROUGE entries iff 'rouge' is
in `--scores`, and the BERTScore entries iff 'bert-score' is in
`--scores`; and each call ends with exactly one `wandb.log` of a record
that also contains the condition kwargs and the sampled images. The iffs
for ROUGE and BERTScore assume the metric results are nonempty and that
the keys the three metric sections generate do not collide, which holds
for the fixed key shapes the script uses. -/
theorem c3_evaluate_log_scores {α : Type} (scores : List String)
    (cond : List (String × String)) (bleuScore : α) (bleuPrecisions : List α)
    (rouge : List (String × List (String × α))) (bert : List (String × α))
    (samples : ℕ)
    (hner : rougeEntries rouge ≠ [])
    (hneb : bertEntries bert ≠ [])
    (hrb : ∀ e ∈ rougeEntries rouge,
      ∀ g ∈ bleuEntries bleuScore bleuPrecisions, e.1 ≠ g.1)
    (hrt : ∀ e ∈ rougeEntries rouge, ∀ g ∈ bertEntries bert, e.1 ≠ g.1)
    (htb : ∀ e ∈ bertEntries bert,
      ∀ g ∈ bleuEntries bleuScore bleuPrecisions, e.1 ≠ g.1) :
    (evaluateWandbLogs scores cond bleuScore bleuPrecisions rouge bert
      samples).length = 1
    ∧ ("condition", LogVal.kwargs cond) ∈
      evaluateLog scores cond bleuScore bleuPrecisions rouge bert samples
    ∧ ("samples", LogVal.images samples) ∈
      evaluateLog scores cond bleuScore bleuPrecisions rouge bert samples
    ∧ ((∃ v, ("bleu", v) ∈
        evaluateLog scores cond bleuScore bleuPrecisions rouge bert samples)
      ↔ "bleu" ∈ scores)
    ∧ ((∃ e ∈ rougeEntries rouge, e ∈
        evaluateLog scores cond bleuScore bleuPrecisions rouge bert samples)
      ↔ "rouge" ∈ scores)
    ∧ ((∃ e ∈ bertEntries bert, e ∈
        evaluateLog scores cond bleuScore bleuPrecisions rouge bert samples)
      ↔ "bert-score" ∈ scores) := by
  refine ⟨rfl, mem_evaluateLog_iff.mpr (Or.inl rfl),
    mem_evaluateLog_iff.mpr (Or.inr (Or.inr (Or.inr (Or.inr rfl)))),
    ?_, ?_, ?_⟩
  · constructor
    · rintro ⟨v, hv⟩
      rcases mem_evaluateLog_iff.mp hv with h | ⟨hs, hm⟩ | ⟨hs, hm⟩ |
        ⟨hs, hm⟩ | h
      · have hf : "bleu" = "condition" := congrArg Prod.fst h
        exact absurd hf (by decide)
      · exact hs
      · rcases rougeEntries_shape hm with ⟨k1, k2, x, heq⟩
        have hf : "bleu" = k1 ++ "-" ++ k2 := congrArg Prod.fst heq
        exact absurd hf.symm
          (key_ne_of_dash (dash_mem_append_middle k1 k2) (by decide))
      · rcases bertEntries_shape hm with ⟨k, x, heq⟩
        have hf : "bleu" = "bert_score-" ++ k := congrArg Prod.fst heq
        exact absurd hf.symm
          (key_ne_of_dash (dash_mem_append_left "bert_score-" k (by decide))
            (by decide))
      · have hf : "bleu" = "samples" := congrArg Prod.fst h
        exact absurd hf (by decide)
    · intro hs
      exact ⟨LogVal.num bleuScore, mem_evaluateLog_iff.mpr
        (Or.inr (Or.inl ⟨hs, List.mem_cons_self _ _⟩))⟩
  · constructor
    · rintro ⟨e, he, hlog⟩
      rcases mem_evaluateLog_iff.mp hlog with h | ⟨hs, hm⟩ | ⟨hs, hm⟩ |
        ⟨hs, hm⟩ | h
      · rcases rougeEntries_shape he with ⟨k1, k2, x, rfl⟩
        simp at h
      · exact absurd rfl (hrb e he e hm)
      · exact hs
      · exact absurd rfl (hrt e he e hm)
      · rcases rougeEntries_shape he with ⟨k1, k2, x, rfl⟩
        simp at h
    · intro hs
      rcases List.exists_mem_of_ne_nil _ hner with ⟨e, he⟩
      exact ⟨e, he, mem_evaluateLog_iff.mpr
        (Or.inr (Or.inr (Or.inl ⟨hs, he⟩)))⟩
  · constructor
    · rintro ⟨e, he, hlog⟩
      rcases mem_evaluateLog_iff.mp hlog with h | ⟨hs, hm⟩ | ⟨hs, hm⟩ |
        ⟨hs, hm⟩ | h
      · rcases bertEntries_shape he with ⟨k, x, rfl⟩
        simp at h
      · exact absurd rfl (htb e he e hm)
      · exact absurd rfl (hrt e hm e he)
      · exact hs
      · rcases bertEntries_shape he with ⟨k, x, rfl⟩
        simp at h
    · intro hs
      rcases List.exists_mem_of_ne_nil _ hneb with ⟨e, he⟩
      exact ⟨e, he, mem_evaluateLog_iff.mpr
        (Or.inr (Or.inr (Or.inr (Or.inl ⟨hs, he⟩))))⟩

/-- Witness for C3 at concrete metric results with integer scores. -/
theorem c3_evaluate_log_scores_witness :
    (rougeEntries [("rouge-1", [("f", (3 : ℤ))])] ≠ []
      ∧ bertEntries [("p", (4 : ℤ))] ≠ [])
    ∧ ("condition", LogVal.kwargs [("strategy", "greedy")]) ∈
      evaluateLog ["bleu", "rouge", "bert-score"] [("strategy", "greedy")]
        (1 : ℤ) [2] [("rouge-1", [("f", 3)])] [("p", 4)] 2 :=
  ⟨⟨by decide, by decide⟩,
    (c3_evaluate_log_scores ["bleu", "rouge", "bert-score"]
      [("strategy", "greedy")] (1 : ℤ) [2] [("rouge-1", [("f", 3)])]
      [("p", 4)] 2 (by decide) (by decide) (by decide) (by decide)
      (by decide)).2.1⟩

end NeuronDesc
